import Mathlib

/-!
Verification development for the two algorithmic cores of the
SmartCalendar repository: the recurrence expander
(`src/services/recurrence.py`) and the free-slot finder / scorer and
proposal-session confirmation (`src/services/voice.py`).

Time is modeled as whole minutes since 0000-03-01 00:00 (proleptic
Gregorian); a day index is `minutes / 1440`, and day 0 is a Wednesday.
All datetimes in the source live in one timezone per computation, so a
single integer timeline is a faithful model; sub-minute fields
(seconds, microseconds) are never relevant to any statement below.
-/

namespace SmartCalendar

/-! ### Calendar arithmetic

Models the civil-date arithmetic of Python `datetime`/`dateutil` that the
source relies on (day-of-month lookups for monthly rules, weekday and
calendar-date comparisons). -/

def isLeap (y : Nat) : Bool := y % 4 = 0 && (y % 100 ≠ 0 || y % 400 = 0)

def daysInMonth (y m : Nat) : Nat :=
  if m = 2 then (if isLeap y then 29 else 28)
  else if m = 4 ∨ m = 6 ∨ m = 9 ∨ m = 11 then 30
  else 31

/-- Day index of the civil date `y-m-d` (days since 0000-03-01). -/
def daysFromCivil (y m d : Nat) : Nat :=
  let yAdj := if m ≤ 2 then y - 1 else y
  let era := yAdj / 400
  let yoe := yAdj % 400
  let mp := if 2 < m then m - 3 else m + 9
  let doy := (153 * mp + 2) / 5 + d - 1
  let doe := yoe * 365 + yoe / 4 - yoe / 100 + doy
  era * 146097 + doe

/-- Civil date `(y, m, d)` of a day index. -/
def civilFromDays (z : Nat) : Nat × Nat × Nat :=
  let era := z / 146097
  let doe := z % 146097
  let yoe := (doe - doe / 1460 + doe / 36524 - doe / 146096) / 365
  let y := yoe + era * 400
  let doy := doe - (365 * yoe + yoe / 4 - yoe / 100)
  let mp := (5 * doy + 2) / 153
  let d := doy - (153 * mp + 2) / 5 + 1
  let m := if mp < 10 then mp + 3 else mp - 9
  (if m ≤ 2 then y + 1 else y, m, d)

/-- Weekday of a day index, Monday = 0 (day 0, 0000-03-01, is a Wednesday). -/
def weekdayOfDay (d : Nat) : Nat := (d + 2) % 7

/-! ### Recurrence expander (`src/services/recurrence.py`) -/

/-- `RecurrenceException`: a single date or date range to skip.
`start` and `stop` are day indices (`stop` models the `end` field). -/
structure RecurrenceException where
  start : Nat
  stop : Option Nat := none
deriving DecidableEq

/-- `RecurrenceException.matches`: `self.start <= target.date() <= (self.end or self.start)`.
`t` is a datetime in minutes; `t / 1440` is its calendar date. (A Python
`date` object is always truthy, so `or` falls back only on `None`.) -/
def RecurrenceException.matches (ex : RecurrenceException) (t : Nat) : Bool :=
  let matchEnd := ex.stop.getD ex.start
  decide (ex.start ≤ t / 1440) && decide (t / 1440 ≤ matchEnd)

/-- `RecurrenceRule`: normalized recurrence rule definition.
`untilTs` models the `until` datetime (minutes); `max_occurrences` is a
Python `int | None`, hence `Option Int`. -/
structure RecurrenceRule where
  frequency : String
  interval : Int := 1
  weekdays : List Nat := []
  untilTs : Option Nat := none
  max_occurrences : Option Int := none
  exceptions : List RecurrenceException := []
deriving DecidableEq

/-- The three `dateutil` frequencies reachable from `resolve_freq`. -/
inductive Freq where
  | daily
  | weekly
  | monthly
deriving DecidableEq

/-- `RecurrenceRule.resolve_freq`: maps the frequency string
(`biweekly` is `WEEKLY`), raising `ValueError` on anything else. -/
def RecurrenceRule.resolve_freq (r : RecurrenceRule) : Except String Freq :=
  if r.frequency = "daily" then .ok .daily
  else if r.frequency = "weekly" then .ok .weekly
  else if r.frequency = "biweekly" then .ok .weekly
  else if r.frequency = "monthly" then .ok .monthly
  else .error ("Unsupported frequency: " ++ r.frequency)

/-- `RecurrenceRule.resolve_interval`: `max(1, self.interval or 1)`, doubled
for `biweekly`. `self.interval or 1` treats the falsy `0` as unset. -/
def RecurrenceRule.resolve_interval (r : RecurrenceRule) : Int :=
  if r.frequency = "biweekly" then
    max 1 (if r.interval = 0 then 1 else r.interval) * 2
  else
    max 1 (if r.interval = 0 then 1 else r.interval)

/-- `limit = rule.max_occurrences or 200` (the safety guard); Python's `or`
falls back to 200 when `max_occurrences` is `None` or the falsy `0`. -/
def RecurrenceRule.limitOf (r : RecurrenceRule) : Int :=
  match r.max_occurrences with
  | none => 200
  | some m => if m = 0 then 200 else m

/-- One monthly candidate of `dateutil.rrule(MONTHLY, bymonthday=[d0])`:
the `n`-th stepped month (absolute month index `M0 + interval * n`)
contributes day `d0` at the template's time of day when that month is long
enough, and is skipped otherwise. -/
def monthOccur (minuteOfDay d0 interval M0 : Nat) (n : Nat) : Option Nat :=
  let M := M0 + interval * n
  let y := M / 12
  let m := M % 12 + 1
  if d0 ≤ daysInMonth y m then some (daysFromCivil y m d0 * 1440 + minuteOfDay) else none

/-- First `k` elements of the occurrence stream of
`dateutil.rrule(freq, interval=interval, dtstart=start, ...)` as configured
by `generate_occurrences` (no `until`): daily steps `interval` days;
weekly enumerates the `byweekday` set (default: the start's weekday) inside
every `interval`-th Monday-based week, keeping times `>= dtstart`; monthly
is locked to the start's day-of-month, skipping months without that day.
The weekly day set is kept in ascending order exactly as `rrule` emits it;
weekday numbers outside 0..6 would make `rrule` raise and are ignored here.
The monthly fuel `96 * k + 400` raw month steps is enough for every
frequency/interval combination that occurs (valid months are never sparser
than one in a hundred steps). -/
def rruleTake (freq : Freq) (interval : Nat) (weekdays : List Nat) (start k : Nat) :
    List Nat :=
  match freq with
  | .daily => (List.range k).map (fun n => start + 1440 * interval * n)
  | .weekly =>
      let startDay := start / 1440
      let w0 := weekdayOfDay startDay
      let ws := if weekdays = [] then [w0] else (List.range 7).filter (fun w => w ∈ weekdays)
      let base := startDay - w0
      let minOfDay := start % 1440
      (((List.range (k + 1)).flatMap (fun j =>
          ws.map (fun w => (base + 7 * interval * j + w) * 1440 + minOfDay))).filter
        (fun t => decide (start ≤ t))).take k
  | .monthly =>
      let c := civilFromDays (start / 1440)
      let M0 := c.1 * 12 + (c.2.1 - 1)
      let d0 := c.2.2
      let minOfDay := start % 1440
      ((List.range (96 * k + 400)).filterMap (monthOccur minOfDay d0 interval M0)).take k

/-- `generate_occurrences(rule=, start=, end=)`: expand a recurrence rule
into concrete `(start, end)` ranges. Mirrors the source: resolve the
frequency (may fail), resolve the interval, reject a non-positive duration,
then iterate the `rrule` stream — which stops once past an `until` bound
(inclusive) — counting every pulled candidate against the cap and dropping
candidates whose date matches an exception. -/
def generate_occurrences (rule : RecurrenceRule) (start stop : Nat) :
    Except String (List (Nat × Nat)) :=
  match rule.resolve_freq with
  | .error e => .error e
  | .ok freq =>
    let interval := rule.resolve_interval
    if stop ≤ start then .error "Event duration must be positive"
    else
      let duration := stop - start
      let weekdays := if freq = .weekly then rule.weekdays else []
      let raw := rruleTake freq interval.toNat weekdays start rule.limitOf.toNat
      let cands := match rule.untilTs with
        | some u => raw.takeWhile (fun t => decide (t ≤ u))
        | none => raw
      let kept := cands.filter (fun t => !(rule.exceptions.any (fun ex => ex.matches t)))
      .ok (kept.map (fun t => (t, t + duration)))

/-! ### Recurrence lemmas -/

theorem rruleTake_length_le (freq : Freq) (interval : Nat) (ws : List Nat) (start k : Nat) :
    (rruleTake freq interval ws start k).length ≤ k := by
  cases freq <;> simp [rruleTake, List.length_take]

theorem resolve_interval_pos (r : RecurrenceRule) : 1 ≤ r.resolve_interval := by
  unfold RecurrenceRule.resolve_interval
  split_ifs <;> omega

/-- The month-to-serial-day map is strictly monotone in the absolute month
index (for indices at or after 0000-03), uniformly in the day-of-month. -/
theorem daysFromCivil_month_step (d M : Nat) (h2 : 2 ≤ M) :
    daysFromCivil (M / 12) (M % 12 + 1) d < daysFromCivil ((M + 1) / 12) ((M + 1) % 12 + 1) d := by
  simp only [daysFromCivil]
  split_ifs <;> omega

theorem daysFromCivil_month_mono (d M N : Nat) (h2 : 2 ≤ M) (hMN : M < N) :
    daysFromCivil (M / 12) (M % 12 + 1) d < daysFromCivil (N / 12) (N % 12 + 1) d := by
  induction N with
  | zero => omega
  | succ n ih =>
    rcases Nat.lt_or_ge M n with h | h
    · exact lt_trans (ih h) (daysFromCivil_month_step d n (by omega))
    · have hMn : M = n := by omega
      subst hMn
      exact daysFromCivil_month_step d M h2

/-- Every civil date on the day-index timeline has absolute month index ≥ 2
(month 2 is 0000-03, the epoch month). -/
theorem civil_month_index_ge_two (z : Nat) :
    2 ≤ (civilFromDays z).1 * 12 + ((civilFromDays z).2.1 - 1) := by
  simp only [civilFromDays]
  split_ifs <;> omega

theorem weekdays_lt_seven (weekdays : List Nat) (d : Nat) (w : Nat)
    (hw : w ∈ if weekdays = [] then [weekdayOfDay d]
              else (List.range 7).filter (fun w => w ∈ weekdays)) : w < 7 := by
  split at hw
  · simp at hw
    subst hw
    exact Nat.mod_lt _ (by omega)
  · exact List.mem_range.1 (List.mem_filter.1 hw).1

/-- The first-`k` occurrence stream of `rruleTake` is strictly increasing. -/
theorem rruleTake_pairwise (freq : Freq) (interval : Nat) (ws : List Nat) (start k : Nat)
    (hi : 1 ≤ interval) : (rruleTake freq interval ws start k).Pairwise (· < ·) := by
  cases freq with
  | daily =>
      simp only [rruleTake]
      rw [List.pairwise_map]
      refine (List.pairwise_lt_range k).imp ?_
      intro a b hab
      have h1 : 1440 * interval * a < 1440 * interval * b :=
        Nat.mul_lt_mul_of_pos_left hab (by omega)
      omega
  | weekly =>
      simp only [rruleTake]
      refine List.Pairwise.sublist (List.take_sublist _ _) ?_
      refine List.Pairwise.filter _ ?_
      rw [List.pairwise_flatMap]
      constructor
      · intro j _
        rw [List.pairwise_map]
        have hws : (if ws = [] then [weekdayOfDay (start / 1440)]
            else (List.range 7).filter (fun w => w ∈ ws)).Pairwise (· < ·) := by
          split
          · simp
          · exact (List.pairwise_lt_range 7).filter _
        refine hws.imp ?_
        intro a b hab
        have : ∀ C : Nat, (C + a) * 1440 + start % 1440 < (C + b) * 1440 + start % 1440 := by
          intro C; omega
        exact this _
      · refine (List.pairwise_lt_range (k + 1)).imp_of_mem ?_
        intro j1 j2 _ _ hj x hx y hy
        simp only [List.mem_map] at hx hy
        obtain ⟨w1, hw1, rfl⟩ := hx
        obtain ⟨w2, hw2, rfl⟩ := hy
        have hlt1 : w1 < 7 := weekdays_lt_seven ws (start / 1440) w1 hw1
        have hmul : interval * (j1 + 1) ≤ interval * j2 :=
          Nat.mul_le_mul_left interval (by omega)
        have hdist : interval * (j1 + 1) = interval * j1 + interval := Nat.mul_succ ..
        have key : 7 * interval * j1 + w1 < 7 * interval * j2 + w2 := by
          have e1 : 7 * interval * j1 = 7 * (interval * j1) := by ring
          have e2 : 7 * interval * j2 = 7 * (interval * j2) := by ring
          rw [e1, e2]
          generalize interval * j1 = a at *
          generalize interval * j2 = b at *
          omega
        generalize hA : 7 * interval * j1 + w1 = A at key
        generalize hB : 7 * interval * j2 + w2 = B at key
        have eA : start / 1440 - weekdayOfDay (start / 1440) + 7 * interval * j1 + w1 =
            start / 1440 - weekdayOfDay (start / 1440) + A := by omega
        have eB : start / 1440 - weekdayOfDay (start / 1440) + 7 * interval * j2 + w2 =
            start / 1440 - weekdayOfDay (start / 1440) + B := by omega
        rw [eA, eB]
        generalize start / 1440 - weekdayOfDay (start / 1440) = base
        omega
  | monthly =>
      simp only [rruleTake]
      refine List.Pairwise.sublist (List.take_sublist _ _) ?_
      refine List.Pairwise.filterMap _ ?_ (List.pairwise_lt_range _)
      intro a b hab x hx y hy
      simp only [monthOccur] at hx hy
      split at hx
      · split at hy
        · simp only [Option.mem_def, Option.some.injEq] at hx hy
          subst hx
          subst hy
          have hM0 : 2 ≤ (civilFromDays (start / 1440)).1 * 12 +
              ((civilFromDays (start / 1440)).2.1 - 1) := civil_month_index_ge_two _
          have hidx : (civilFromDays (start / 1440)).1 * 12 +
                ((civilFromDays (start / 1440)).2.1 - 1) + interval * a <
              (civilFromDays (start / 1440)).1 * 12 +
                ((civilFromDays (start / 1440)).2.1 - 1) + interval * b := by
            have : interval * a < interval * b := Nat.mul_lt_mul_of_pos_left hab (by omega)
            omega
          have := daysFromCivil_month_mono (civilFromDays (start / 1440)).2.2
            ((civilFromDays (start / 1440)).1 * 12 +
              ((civilFromDays (start / 1440)).2.1 - 1) + interval * a)
            ((civilFromDays (start / 1440)).1 * 12 +
              ((civilFromDays (start / 1440)).2.1 - 1) + interval * b)
            (by omega) hidx
          omega
        · simp at hy
      · simp at hx

/-- In a strictly increasing list, an element survives `takeWhile (· ≤ u)`
when `u` is itself that element. -/
theorem mem_takeWhile_le_of_pairwise {l : List Nat} {u : Nat} (hp : l.Pairwise (· < ·))
    (hu : u ∈ l) : u ∈ l.takeWhile (fun t => decide (t ≤ u)) := by
  induction l with
  | nil => cases hu
  | cons x xs ih =>
    rcases List.mem_cons.1 hu with rfl | hx
    · rw [List.takeWhile_cons]
      simp
    · have hxu : x < u := (List.pairwise_cons.1 hp).1 u hx
      rw [List.takeWhile_cons, if_pos (show decide (x ≤ u) = true by simp [Nat.le_of_lt hxu])]
      exact List.mem_cons.2 (Or.inr (ih (List.pairwise_cons.1 hp).2 hx))

/-! ### Claim C2 (occurrence cap) -/

/-- C2, counterexample: the claim "at most the rule's configured
`max_occurrences` when one is set" fails for the set value `0`: Python's
`rule.max_occurrences or 200` treats the falsy `0` as unset, so a daily rule
with `max_occurrences = 0` and no cutoff yields 200 occurrences, not ≤ 0. -/
theorem cap_claim_counterexample :
    (generate_occurrences { frequency := "daily", max_occurrences := some 0 } 0 60).map
        List.length = .ok 200 ∧ ¬(200 ≤ 0) := by
  constructor
  · rfl
  · omega

/-- C2 (amended): for every rule with no explicit cutoff,
`generate_occurrences` terminates and returns at most 200 occurrences when
`max_occurrences` is unset or zero, and at most `max(max_occurrences, 0)`
occurrences when a nonzero one is set (a negative value yields none); the
generation loop never pulls more than that many candidates. -/
theorem generate_occurrences_cap (rule : RecurrenceRule) (start stop : Nat)
    (l : List (Nat × Nat)) (hu : rule.untilTs = none)
    (h : generate_occurrences rule start stop = .ok l) :
    l.length ≤ match rule.max_occurrences with
      | none => 200
      | some m => if m = 0 then 200 else m.toNat := by
  have hlim : rule.limitOf.toNat = match rule.max_occurrences with
      | none => 200
      | some m => if m = 0 then 200 else m.toNat := by
    unfold RecurrenceRule.limitOf
    cases rule.max_occurrences with
    | none => rfl
    | some m =>
        simp only []
        split_ifs <;> rfl
  rw [← hlim]
  unfold generate_occurrences at h
  split at h
  · exact absurd h (by simp)
  · split at h
    · exact absurd h (by simp)
    · rw [hu] at h
      rw [Except.ok.injEq] at h
      subst h
      rw [List.length_map]
      calc (List.filter _ _).length ≤ (rruleTake _ _ _ start rule.limitOf.toNat).length :=
            List.length_filter_le _ _
        _ ≤ rule.limitOf.toNat := rruleTake_length_le _ _ _ _ _

/-- C2, witness for the amended theorem at a concrete daily rule. -/
theorem generate_occurrences_cap_witness :
    ([((1440 : Nat), (1500 : Nat)), (2880, 2940)] : List (Nat × Nat)).length ≤ 2 := by
  have h := generate_occurrences_cap { frequency := "daily", max_occurrences := some 2 }
    1440 1500 [(1440, 1500), (2880, 2940)] rfl rfl
  simpa using h

/-! ### Claim C3 (exception filtering consumes the cap) -/

/-- C3: an occurrence whose calendar date falls inside a configured exception
range never appears in the output of `generate_occurrences`; yet such a
candidate still consumes one unit of the occurrence cap: with
`max_occurrences = 3` and the second of the first three daily dates excepted,
the result has exactly the 2 occurrences shown, not 3. -/
theorem exception_filtering :
    (∀ (rule : RecurrenceRule) (start stop : Nat) (l : List (Nat × Nat)),
        generate_occurrences rule start stop = .ok l →
        ∀ p ∈ l, ∀ ex ∈ rule.exceptions, ex.matches p.1 = false) ∧
    generate_occurrences
        { frequency := "daily", max_occurrences := some 3, exceptions := [{ start := 2 }] }
        1440 1500 =
      .ok [(1440, 1500), (4320, 4380)] := by
  constructor
  · intro rule start stop l h p hp ex hex
    unfold generate_occurrences at h
    split at h
    · exact absurd h (by simp)
    · split at h
      · exact absurd h (by simp)
      · rw [Except.ok.injEq] at h
        subst h
        obtain ⟨t, ht, rfl⟩ := List.mem_map.1 hp
        have hflt := (List.mem_filter.1 ht).2
        simp only [Bool.not_eq_true', List.any_eq_false] at hflt
        simpa using hflt ex hex
  · rfl

/-- C3, witness: the general part applied at the concrete rule above. -/
theorem exception_filtering_witness :
    RecurrenceException.matches { start := 2 } 1440 = false :=
  exception_filtering.1
    { frequency := "daily", max_occurrences := some 3, exceptions := [{ start := 2 }] }
    1440 1500 [(1440, 1500), (4320, 4380)] rfl
    (1440, 1500) (by decide) { start := 2 } (by decide)

/-! ### Claim C8 (cutoff is an inclusive boundary) -/

/-- C8: the explicit cutoff is inclusive. For every rule with an `until`
cutoff `u`: (1) every occurrence in the output starts at or before `u`
(so an occurrence one cadence step past `u` is excluded), and (2) a cadence
candidate landing exactly on `u` that is within the occurrence cap and not
excepted appears in the output. -/
theorem cutoff_inclusive (rule : RecurrenceRule) (start stop u : Nat) (f : Freq)
    (l : List (Nat × Nat)) (hf : rule.resolve_freq = .ok f)
    (hu : rule.untilTs = some u)
    (hgen : generate_occurrences rule start stop = .ok l) :
    (∀ p ∈ l, p.1 ≤ u) ∧
    (u ∈ rruleTake f rule.resolve_interval.toNat
          (if f = .weekly then rule.weekdays else []) start rule.limitOf.toNat →
      (∀ ex ∈ rule.exceptions, ex.matches u = false) →
      (u, u + (stop - start)) ∈ l) := by
  simp only [generate_occurrences, hf, hu] at hgen
  split at hgen
  · exact absurd hgen (by simp)
  · rw [Except.ok.injEq] at hgen
    subst hgen
    constructor
    · intro p hp
      obtain ⟨t, ht, rfl⟩ := List.mem_map.1 hp
      have := List.mem_takeWhile_imp (List.mem_filter.1 ht).1
      simpa using this
    · intro hmem hexc
      have hpw : (rruleTake f rule.resolve_interval.toNat
          (if f = .weekly then rule.weekdays else []) start rule.limitOf.toNat).Pairwise
            (· < ·) := by
        refine rruleTake_pairwise _ _ _ _ _ ?_
        have := resolve_interval_pos rule
        omega
      have htw := mem_takeWhile_le_of_pairwise hpw hmem
      refine List.mem_map.2 ⟨u, List.mem_filter.2 ⟨htw, ?_⟩, rfl⟩
      simp only [Bool.not_eq_true', List.any_eq_false]
      intro ex hex
      simp [hexc ex hex]

/-- C8, witness: daily rule from minute 14400 with cutoff 17280 (exactly the
third cadence step); the occurrence at the cutoff is included and every
output start is at most the cutoff. -/
theorem cutoff_inclusive_witness :
    (∀ p ∈ ([(14400, 14460), (15840, 15900), (17280, 17340)] : List (Nat × Nat)),
        p.1 ≤ 17280) ∧
    ((17280, 17340) : Nat × Nat) ∈
      ([(14400, 14460), (15840, 15900), (17280, 17340)] : List (Nat × Nat)) := by
  have h := cutoff_inclusive { frequency := "daily", untilTs := some 17280 } 14400 14460
    17280 .daily [(14400, 14460), (15840, 15900), (17280, 17340)] rfl rfl rfl
  exact ⟨h.1, h.2 (by decide) (by decide)⟩

/-! ### Claim C10 (interval clamping) -/

/-- C10: a zero or negative recurrence interval does not make expansion
fail: `resolve_interval` clamps the effective interval to 1 (to 2 for
biweekly), `generate_occurrences` behaves exactly as if the interval were 1,
and expansion succeeds whenever the frequency is recognized and the duration
is positive — no error is ever raised for a non-positive interval. -/
theorem interval_clamping :
    (∀ r : RecurrenceRule, r.interval ≤ 0 →
        r.resolve_interval = if r.frequency = "biweekly" then 2 else 1) ∧
    (∀ (r : RecurrenceRule) (start stop : Nat), r.interval ≤ 0 →
        generate_occurrences r start stop =
          generate_occurrences { r with interval := 1 } start stop) ∧
    (∀ (r : RecurrenceRule) (start stop : Nat) (f : Freq),
        r.resolve_freq = .ok f → start < stop →
        ∃ l, generate_occurrences r start stop = .ok l) := by
  refine ⟨?_, ?_, ?_⟩
  · intro r h
    unfold RecurrenceRule.resolve_interval
    split_ifs <;> omega
  · intro r start stop h
    have hi : ({ r with interval := 1 } : RecurrenceRule).resolve_interval =
        r.resolve_interval := by
      unfold RecurrenceRule.resolve_interval
      simp only []
      split_ifs <;> omega
    simp only [generate_occurrences, hi]
    rfl
  · intro r start stop f hf hlt
    simp only [generate_occurrences, hf]
    rw [if_neg (show ¬stop ≤ start by omega)]
    exact ⟨_, rfl⟩

/-- C10, witness: a daily rule with interval `-3` expands as interval 1 and
succeeds. -/
theorem interval_clamping_witness :
    ({ frequency := "daily", interval := -3 } : RecurrenceRule).resolve_interval = 1 ∧
    generate_occurrences { frequency := "daily", interval := -3 } 0 60 =
      generate_occurrences { frequency := "daily", interval := 1 } 0 60 ∧
    ∃ l, generate_occurrences { frequency := "daily", interval := -3 } 0 60 = .ok l := by
  refine ⟨?_, ?_, ?_⟩
  · have h := interval_clamping.1 { frequency := "daily", interval := -3 } (by decide)
    simpa using h
  · exact interval_clamping.2.1 { frequency := "daily", interval := -3 } 0 60 (by decide)
  · exact interval_clamping.2.2 { frequency := "daily", interval := -3 } 0 60 .daily rfl
      (by omega)

/-! ### Slot finder / scorer (`src/services/voice.py`)

Times are minutes (`Int`, same epoch as above); `%` and `/` on `Int` (`Int.emod`/`Int.ediv`) with a
positive divisor agree with Python's `%` and `//`. Busy events are
modeled as already-parsed `(start, end)` minute pairs — the source's
ISO-string parsing, skip-on-missing-fields and timezone-attachment branches
belong to the I/O boundary. Candidates carry the fields the algorithm reads
(`start`, `end`, `score`, `weekday`); the display-only `day`/`time` strings
are functions of `start` and are omitted, which leaves dictionary equality
(used by `slot not in spread`) unchanged. -/

/-- `dt.hour` of a minute timestamp. -/
def hourOf (t : Int) : Int := (t % 1440) / 60

/-- `dt.date()` of a minute timestamp, as a day index. -/
def dayOf (t : Int) : Int := t / 1440

/-- `dt.weekday()` of a minute timestamp, Monday = 0. -/
def weekdayOf (t : Int) : Int := (dayOf t + 2) % 7

/-- `_round_to_interval`: round up to the next `m`-minute boundary
(always advances: `minute // m + 1` then `* m`, carrying into the hour). -/
def round_to_interval (t : Int) (m : Int) : Int :=
  let minOfHour := t % 60
  let hourBase := t - minOfHour
  let newMin := (minOfHour / m + 1) * m
  if 60 ≤ newMin then hourBase + 60 else hourBase + newMin

/-- `_next_working_start`: today at `start_hour`, pushed to tomorrow when the
current hour is already at or past `start_hour`. -/
def next_working_start (t : Int) (startHour : Nat) : Int :=
  let dayBase := t - t % 1440
  let candidate := dayBase + startHour * 60
  if (startHour : Int) ≤ hourOf t then candidate + 1440 else candidate

/-- `_is_slot_free`: no busy interval overlaps `[start, stop)`
(overlap: `start < event_end and end > event_start`). -/
def is_slot_free (start stop : Int) (existing_events : List (Int × Int)) : Bool :=
  existing_events.all (fun ev => !(decide (start < ev.2) && decide (stop > ev.1)))

/-- `_score_slot`: additive heuristic score of a slot. The Python floats are
all exact multiples of 0.5, so `ℚ` models them exactly. `stop` and
`existing_events` are accepted and unused, as in the source. -/
def score_slot (start stop : Int) (preferred_time : Option String)
    (existing_events : List (Int × Int)) : ℚ :=
  let _ := stop
  let _ := existing_events
  let hour := hourOf start
  let s1 : ℚ := 100
  let s2 := if preferred_time = some "morning" ∧ 8 ≤ hour ∧ hour < 12 then s1 + 30
    else if preferred_time = some "afternoon" ∧ 12 ≤ hour ∧ hour < 17 then s1 + 30
    else if preferred_time = some "evening" ∧ 17 ≤ hour ∧ hour < 20 then s1 + 30
    else if preferred_time = none ∧ 9 ≤ hour ∧ hour < 17 then s1 + 20
    else s1
  let s3 := s2 + ((20 : ℚ) - (hour : ℚ)) * (1 / 2)
  let s4 := if 12 ≤ hour ∧ hour < 13 then s3 - 15 else s3
  let s5 := if 18 ≤ hour ∧ hour < 19 then s4 - 15 else s4
  let s6 := if 19 ≤ hour then s5 - 10 else s5
  let weekday := weekdayOf start
  if weekday < 4 then s6 + 5
  else if weekday = 4 then s6 + 0
  else s6 - 5

/-- A slot candidate: the fields of the Python candidate dict that the
algorithm reads (`stop` models the `end` key). -/
structure Candidate where
  start : Int
  stop : Int
  score : ℚ
  weekday : Int
deriving DecidableEq

/-- The candidate-generation `while` loop of `_find_free_slots`: walk the
15-minute grid inside the working-hour band `[workingStart, workingEnd)`,
jumping to the next working-day start when out of band, and keep every slot
whose 15-minute-buffered window is free. The structural `fuel` bounds the
iteration count; every iteration advances `current` by at least one minute
(by 15 on the grid, and `next_working_start` always moves forward), so a
caller passing `fuel = (endDate - current).toNat` runs the loop to its
`current < endDate` exit exactly as the source's `while` does. -/
def scanSlots (endDate : Int) (workingStart workingEnd : Nat) (durationMinutes : Int)
    (preferred_time : Option String) (events : List (Int × Int)) :
    Nat → Int → List Candidate
  | 0, _ => []
  | fuel + 1, current =>
    if current < endDate then
      if (workingStart : Int) ≤ hourOf current ∧ hourOf current < (workingEnd : Int) then
        let buffered_start := current - 15
        let slot_end := current + durationMinutes
        let buffered_end := slot_end + 15
        let rest := scanSlots endDate workingStart workingEnd durationMinutes preferred_time
          events fuel (current + 15)
        if is_slot_free buffered_start buffered_end events then
          { start := current, stop := slot_end,
            score := score_slot current slot_end preferred_time events,
            weekday := weekdayOf current } :: rest
        else rest
      else
        scanSlots endDate workingStart workingEnd durationMinutes preferred_time events
          fuel (next_working_start current workingStart)
    else []

/-- Each `scanSlots` step strictly advances `current`, so the fuel
`(endDate - current).toNat` used by `slotCandidates` never runs out before
the loop's own exit condition: with that fuel, the `fuel = 0` base case is
unreachable. -/
theorem scanSlots_fuel_sufficient (endDate : Int) (ws we : Nat) (d : Int)
    (pref : Option String) (events : List (Int × Int)) :
    ∀ (fuel : Nat) (current : Int), (endDate - current).toNat ≤ fuel →
      scanSlots endDate ws we d pref events fuel current =
        scanSlots endDate ws we d pref events (endDate - current).toNat current := by
  intro fuel
  induction fuel using Nat.strong_induction_on with
  | _ fuel ih =>
    intro current hle
    match fuel, hle with
    | 0, hle =>
        have : (endDate - current).toNat = 0 := by omega
        rw [this]
    | fuel + 1, hle =>
        rcases Nat.eq_zero_or_pos (endDate - current).toNat with h0 | hpos
        · rw [h0]
          have hnot : ¬current < endDate := by omega
          simp [scanSlots, hnot]
        · obtain ⟨n, hn⟩ : ∃ n, (endDate - current).toNat = n + 1 :=
            ⟨(endDate - current).toNat - 1, by omega⟩
          rw [hn]
          simp only [scanSlots]
          have hadv : current < next_working_start current ws := by
            simp only [next_working_start, hourOf]
            split <;> omega
          split
          · split
            · have e1 : scanSlots endDate ws we d pref events fuel (current + 15) =
                  scanSlots endDate ws we d pref events (endDate - (current + 15)).toNat
                    (current + 15) := ih fuel (by omega) _ (by omega)
              have e2 : scanSlots endDate ws we d pref events n (current + 15) =
                  scanSlots endDate ws we d pref events (endDate - (current + 15)).toNat
                    (current + 15) := ih n (by omega) _ (by omega)
              rw [e1, e2]
            · have e1 : scanSlots endDate ws we d pref events fuel
                    (next_working_start current ws) =
                  scanSlots endDate ws we d pref events
                    (endDate - next_working_start current ws).toNat
                    (next_working_start current ws) := ih fuel (by omega) _ (by omega)
              have e2 : scanSlots endDate ws we d pref events n
                    (next_working_start current ws) =
                  scanSlots endDate ws we d pref events
                    (endDate - next_working_start current ws).toNat
                    (next_working_start current ws) := ih n (by omega) _ (by omega)
              rw [e1, e2]
          · rfl

/-- Stable insertion step for `candidates.sort(key=score, reverse=True)`:
walk past strictly higher scores, so that an inserted candidate lands before
any equal-scored candidate that came later in generation order.
`insertByScore`/`sortByScore` compute exactly Python's stable
descending-by-score sort. -/
def insertByScore (c : Candidate) : List Candidate → List Candidate
  | [] => [c]
  | x :: xs => if c.score < x.score then x :: insertByScore c xs else c :: x :: xs

def sortByScore : List Candidate → List Candidate
  | [] => []
  | x :: xs => insertByScore x (sortByScore xs)

/-- The proximity / diversity selection loop of `_find_free_slots`: walk the
sorted candidates, stopping once `count * 2` are selected, and skip a
candidate within 60 minutes of an already selected candidate on the same
calendar day. -/
def proximityPick (count : Int) : List Candidate → List Candidate → List Candidate
  | selected, [] => selected
  | selected, c :: rest =>
      if count * 2 ≤ (selected.length : Int) then selected
      else if selected.any (fun sel =>
          decide (dayOf c.start = dayOf sel.start) &&
          decide ((c.start - sel.start).natAbs < 60)) then
        proximityPick count selected rest
      else
        proximityPick count (selected ++ [c]) rest

/-- `max(slots, key=lambda x: x['score'])`: first maximal-score element. -/
def bestSlot : List Candidate → Option Candidate
  | [] => none
  | x :: xs => some (xs.foldl (fun b y => if b.score < y.score then y else b) x)

/-- Insert into a sorted list of distinct days (`sorted(by_day.keys())`). -/
def insertDay (d : Int) : List Int → List Int
  | [] => [d]
  | x :: xs =>
      if d < x then d :: x :: xs
      else if d = x then x :: xs
      else x :: insertDay d xs

/-- The ascending list of distinct calendar days of the given slots. -/
def sortedDaysOf (slots : List Candidate) : List Int :=
  (slots.map (fun s => dayOf s.start)).foldr insertDay []

/-- First pass of `_spread_across_days`: for each day in chronological
order, append that day's highest-scoring slot while fewer than `cap`
slots have been gathered. -/
def spreadPassOne (cap : Int) (slots : List Candidate) :
    List Int → List Candidate → List Candidate
  | [], spread => spread
  | d :: ds, spread =>
      if (spread.length : Int) < cap then
        match bestSlot (slots.filter (fun s => decide (dayOf s.start = d))) with
        | some b => spreadPassOne cap slots ds (spread ++ [b])
        | none => spreadPassOne cap slots ds spread
      else spreadPassOne cap slots ds spread

/-- Second pass of `_spread_across_days`: append remaining slots, in their
existing order, that are not yet present, until `cap` is reached. -/
def spreadPassTwo (cap : Int) : List Candidate → List Candidate → List Candidate
  | [], spread => spread
  | s :: rest, spread =>
      if s ∉ spread ∧ (spread.length : Int) < cap then
        spreadPassTwo cap rest (spread ++ [s])
      else spreadPassTwo cap rest spread

/-- `_spread_across_days(slots, count)`. -/
def spread_across_days (slots : List Candidate) (count : Int) : List Candidate :=
  spreadPassTwo (count * 2) slots
    (spreadPassOne (count * 2) slots (sortedDaysOf slots) [])

/-- Python list slicing `l[:k]` for an `int` bound `k` (a negative bound
drops `|k|` elements from the end). -/
def pySlice (l : List α) (k : Int) : List α :=
  if k < 0 then l.take ((l.length : Int) + k).toNat else l.take k.toNat

/-- The candidate-generation phase of `_find_free_slots`: search window from
the symbolic time range, preference-dependent working band, then the
15-minute grid scan starting at `now + 30min` rounded up. -/
def slotCandidates (now durationMinutes : Int) (time_range : String)
    (preferred_time : Option String) (events : List (Int × Int)) : List Candidate :=
  let endDate :=
    if time_range = "this_week" then now + 7 * 1440
    else if time_range = "next_3_days" then now + 3 * 1440
    else if time_range = "today" then now - now % 1440 + (23 * 60 + 59)
    else now + 7 * 1440
  let band : Nat × Nat :=
    if preferred_time = some "morning" then (8, 12)
    else if preferred_time = some "afternoon" then (12, 17)
    else if preferred_time = some "evening" then (17, 20)
    else (8, 20)
  let current := round_to_interval (now + 30) 15
  scanSlots endDate band.1 band.2 durationMinutes preferred_time events
    (endDate - current).toNat current

/-- `_find_free_slots`: generate candidates, sort by descending score
(stably), apply the proximity rule up to `count * 2` selections, spread
across days when `count > 1`, and return the first `count * 2`. The busy
events are the already-fetched calendar intervals; `now` is the clock
reading, made explicit. No validation of `durationMinutes` or `count` is
performed anywhere, mirroring the source. -/
def find_free_slots (now durationMinutes count : Int) (time_range : String)
    (preferred_time : Option String) (events : List (Int × Int)) : List Candidate :=
  let candidates := sortByScore (slotCandidates now durationMinutes time_range
    preferred_time events)
  let selected := proximityPick count [] candidates
  let final := if 1 < count then spread_across_days selected count else selected
  pySlice final (count * 2)

/-! ### Slot-finder lemmas -/

theorem scanSlots_free (endDate : Int) (ws we : Nat) (d : Int) (pref : Option String)
    (events : List (Int × Int)) :
    ∀ (fuel : Nat) (current : Int) (c : Candidate),
      c ∈ scanSlots endDate ws we d pref events fuel current →
      is_slot_free (c.start - 15) (c.stop + 15) events = true ∧ c.stop = c.start + d := by
  intro fuel
  induction fuel with
  | zero =>
      intro current c hc
      simp [scanSlots] at hc
  | succ n ih =>
      intro current c hc
      simp only [scanSlots] at hc
      split at hc
      · split at hc
        · split at hc
          · rcases List.mem_cons.1 hc with rfl | hc'
            · rename_i hfree
              exact ⟨hfree, rfl⟩
            · exact ih _ _ hc'
          · exact ih _ _ hc
        · exact ih _ _ hc
      · simp at hc

theorem mem_insertByScore {x c : Candidate} {l : List Candidate} :
    x ∈ insertByScore c l ↔ x = c ∨ x ∈ l := by
  induction l with
  | nil => simp [insertByScore]
  | cons y ys ih =>
      simp only [insertByScore]
      split
      · simp only [List.mem_cons, ih]
        tauto
      · simp only [List.mem_cons]

theorem mem_sortByScore {x : Candidate} {l : List Candidate} :
    x ∈ sortByScore l ↔ x ∈ l := by
  induction l with
  | nil => simp [sortByScore]
  | cons y ys ih => simp [sortByScore, mem_insertByScore, ih]

theorem proximityPick_mem (count : Int) :
    ∀ (l acc : List Candidate) (x : Candidate),
      x ∈ proximityPick count acc l → x ∈ acc ∨ x ∈ l := by
  intro l
  induction l with
  | nil =>
      intro acc x hx
      simp only [proximityPick] at hx
      exact Or.inl hx
  | cons c rest ih =>
      intro acc x hx
      simp only [proximityPick] at hx
      split at hx
      · exact Or.inl hx
      · split at hx
        · rcases ih acc x hx with h | h
          · exact Or.inl h
          · exact Or.inr (List.mem_cons_of_mem _ h)
        · rcases ih (acc ++ [c]) x hx with h | h
          · rcases List.mem_append.1 h with h' | h'
            · exact Or.inl h'
            · simp only [List.mem_singleton] at h'
              exact Or.inr (h' ▸ List.mem_cons_self c rest)
          · exact Or.inr (List.mem_cons_of_mem _ h)

theorem bestSlot_foldl_mem (pick : Candidate → Candidate → Candidate)
    (hpick : ∀ a b, pick a b = a ∨ pick a b = b) :
    ∀ (xs : List Candidate) (x : Candidate), xs.foldl pick x = x ∨ xs.foldl pick x ∈ xs := by
  intro xs
  induction xs with
  | nil => intro x; exact Or.inl rfl
  | cons y ys ih =>
      intro x
      simp only [List.foldl_cons]
      rcases ih (pick x y) with h | h
      · rcases hpick x y with h' | h'
        · exact Or.inl (h.trans h')
        · exact Or.inr (List.mem_cons.2 (Or.inl (h.trans h')))
      · exact Or.inr (List.mem_cons_of_mem _ h)

theorem bestSlot_mem {l : List Candidate} {b : Candidate} (h : bestSlot l = some b) :
    b ∈ l := by
  match l, h with
  | x :: xs, h =>
      simp only [bestSlot, Option.some.injEq] at h
      subst h
      rcases bestSlot_foldl_mem (fun b y => if b.score < y.score then y else b)
          (fun a c => by dsimp only; split <;> simp) xs x with h | h
      · rw [h]
        exact List.mem_cons_self x xs
      · exact List.mem_cons_of_mem _ h

theorem spreadPassOne_mem (cap : Int) (slots : List Candidate) :
    ∀ (ds : List Int) (acc : List Candidate) (x : Candidate),
      x ∈ spreadPassOne cap slots ds acc → x ∈ acc ∨ x ∈ slots := by
  intro ds
  induction ds with
  | nil =>
      intro acc x hx
      simp only [spreadPassOne] at hx
      exact Or.inl hx
  | cons d ds ih =>
      intro acc x hx
      simp only [spreadPassOne] at hx
      split at hx
      · split at hx
        · rename_i b hb
          rcases ih _ x hx with h | h
          · rcases List.mem_append.1 h with h' | h'
            · exact Or.inl h'
            · simp only [List.mem_singleton] at h'
              subst h'
              exact Or.inr (List.mem_of_mem_filter (bestSlot_mem hb))
          · exact Or.inr h
        · exact ih _ x hx
      · exact ih _ x hx

theorem spreadPassTwo_mem (cap : Int) :
    ∀ (l acc : List Candidate) (x : Candidate),
      x ∈ spreadPassTwo cap l acc → x ∈ acc ∨ x ∈ l := by
  intro l
  induction l with
  | nil =>
      intro acc x hx
      simp only [spreadPassTwo] at hx
      exact Or.inl hx
  | cons s rest ih =>
      intro acc x hx
      simp only [spreadPassTwo] at hx
      split at hx
      · rcases ih _ x hx with h | h
        · rcases List.mem_append.1 h with h' | h'
          · exact Or.inl h'
          · simp only [List.mem_singleton] at h'
            exact Or.inr (h' ▸ List.mem_cons_self s rest)
        · exact Or.inr (List.mem_cons_of_mem _ h)
      · rcases ih _ x hx with h | h
        · exact Or.inl h
        · exact Or.inr (List.mem_cons_of_mem _ h)

theorem mem_pySlice {l : List α} {k : Int} {x : α} (h : x ∈ pySlice l k) : x ∈ l := by
  unfold pySlice at h
  split at h <;> exact List.take_subset _ _ h

/-- Every candidate returned by `find_free_slots` came from the grid scan. -/
theorem find_free_slots_mem_scan (now dur count : Int) (tr : String)
    (pref : Option String) (events : List (Int × Int)) (c : Candidate)
    (hc : c ∈ find_free_slots now dur count tr pref events) :
    c ∈ slotCandidates now dur tr pref events := by
  unfold find_free_slots at hc
  have h1 := mem_pySlice hc
  have hsel : ∀ x, x ∈ proximityPick count []
      (sortByScore (slotCandidates now dur tr pref events)) →
      x ∈ slotCandidates now dur tr pref events := by
    intro x hx
    rcases proximityPick_mem count _ _ x hx with h | h
    · simp at h
    · exact mem_sortByScore.1 h
  split at h1
  · unfold spread_across_days at h1
    rcases spreadPassTwo_mem _ _ _ c h1 with h2 | h2
    · rcases spreadPassOne_mem _ _ _ _ c h2 with h3 | h3
      · simp at h3
      · exact hsel c h3
    · exact hsel c h2
  · exact hsel c h1

/-! ### Claim C4 (no fail-fast validation of duration/count) -/

unseal Rat.add Rat.sub Rat.mul Rat.inv in
/-- C4: `_find_free_slots` performs no validation of `duration_minutes` or
`count`. At the concrete failing input (Monday 08:00, `time_range='today'`,
`duration_minutes = -30`, `count = 1`, no busy events), it silently scans and
returns two proposals whose end precedes their start, instead of failing
fast with an error before scanning — the embedding has no error channel at
all because the source raises nothing. -/
theorem find_free_slots_no_validation :
    (find_free_slots 17760 (-30) 1 "today" none []).length = 2 ∧
    (find_free_slots 17760 (-30) 1 "today" none []).all
      (fun c => decide (c.stop < c.start)) = true := by
  constructor
  · decide
  · decide

/-! ### Claim C1 (slot freeness) -/

unseal Rat.add Rat.sub Rat.mul Rat.inv in
/-- C1: every candidate returned by the slot search has its 15-minute-padded
interval free of every busy interval (first conjunct); and in the concrete
case of a 14:00–15:00 busy interval (minutes 18120–18180 of the model
timeline) with a 30-minute request, the scan accepts no candidate starting
in [13:30, 15:15) (minutes [18090, 18195)) and accepts one at 15:30
(minute 18210). -/
theorem slot_freeness :
    (∀ (now dur count : Int) (tr : String) (pref : Option String)
        (events : List (Int × Int)) (c : Candidate),
        c ∈ find_free_slots now dur count tr pref events →
        is_slot_free (c.start - 15) (c.stop + 15) events = true) ∧
    (slotCandidates 17760 30 "today" none [(18120, 18180)]).all
      (fun c => !(decide (18090 ≤ c.start) && decide (c.start < 18195))) = true ∧
    (slotCandidates 17760 30 "today" none [(18120, 18180)]).any
      (fun c => decide (c.start = 18210)) = true := by
  refine ⟨?_, by decide, by decide⟩
  intro now dur count tr pref events c hc
  have hscan := find_free_slots_mem_scan now dur count tr pref events c hc
  unfold slotCandidates at hscan
  exact (scanSlots_free _ _ _ _ _ _ _ _ c hscan).1

unseal Rat.add Rat.sub Rat.mul Rat.inv in
/-- C1, witness: the first returned slot of a concrete search is padded-free. -/
theorem slot_freeness_witness :
    is_slot_free (17820 - 15) (17850 + 15) [] = true :=
  slot_freeness.1 17760 30 1 "today" none []
    { start := 17820, stop := 17850, score := 261 / 2, weekday := 0 } (by decide)

/-! ### Claim C7 (proximity diversity) -/

/-- Two candidates satisfy the proximity rule: if they fall on the same
calendar day, their starts are at least 60 minutes apart. -/
def farOnSameDay (a b : Candidate) : Prop :=
  dayOf a.start = dayOf b.start → ¬(a.start - b.start).natAbs < 60

theorem farOnSameDay_symm {a b : Candidate} (h : farOnSameDay a b) : farOnSameDay b a := by
  unfold farOnSameDay at *
  omega

/-- The diversity filter only ever adds a candidate that respects the
proximity rule against everything already selected. -/
theorem proximityPick_pairwise (count : Int) :
    ∀ (l acc : List Candidate), acc.Pairwise farOnSameDay →
      (proximityPick count acc l).Pairwise farOnSameDay := by
  intro l
  induction l with
  | nil =>
      intro acc hacc
      simpa [proximityPick] using hacc
  | cons c rest ih =>
      intro acc hacc
      simp only [proximityPick]
      split
      · exact hacc
      · split
        · exact ih acc hacc
        · rename_i hclose
          refine ih (acc ++ [c]) ?_
          rw [List.pairwise_append]
          refine ⟨hacc, List.pairwise_singleton _ _, ?_⟩
          intro a ha b hb
          simp only [List.mem_singleton] at hb
          subst hb
          simp only [List.any_eq_true, not_exists, not_and, Bool.and_eq_true,
            decide_eq_true_eq] at hclose
          have hca := hclose a ha
          unfold farOnSameDay
          omega

theorem spreadPassTwo_nodup (cap : Int) :
    ∀ (l acc : List Candidate), acc.Nodup → (spreadPassTwo cap l acc).Nodup := by
  intro l
  induction l with
  | nil =>
      intro acc hacc
      simpa [spreadPassTwo] using hacc
  | cons s rest ih =>
      intro acc hacc
      simp only [spreadPassTwo]
      split
      · rename_i hcond
        refine ih _ ?_
        rw [List.nodup_append]
        exact ⟨hacc, List.nodup_singleton _, by
          intro a ha hmem
          simp only [List.mem_singleton] at hmem
          exact hcond.1 (hmem ▸ ha)⟩
      · exact ih _ hacc

theorem spreadPassOne_nodup (cap : Int) (slots : List Candidate) :
    ∀ (ds : List Int) (acc : List Candidate), ds.Pairwise (· < ·) → acc.Nodup →
      (∀ x ∈ acc, ∀ d ∈ ds, dayOf x.start ≠ d) →
      (spreadPassOne cap slots ds acc).Nodup := by
  intro ds
  induction ds with
  | nil =>
      intro acc _ hacc _
      simpa [spreadPassOne] using hacc
  | cons d ds ih =>
      intro acc hds hacc hsep
      have hds' := (List.pairwise_cons.1 hds).2
      have hdlt := (List.pairwise_cons.1 hds).1
      simp only [spreadPassOne]
      split
      · split
        · rename_i b hb
          have hbday : dayOf b.start = d := by
            have := List.mem_filter.1 (bestSlot_mem hb)
            simpa using this.2
          refine ih _ hds' ?_ ?_
          · rw [List.nodup_append]
            refine ⟨hacc, List.nodup_singleton _, ?_⟩
            intro a ha hmem
            simp only [List.mem_singleton] at hmem
            subst hmem
            exact hsep a ha d (List.mem_cons_self _ _) hbday
          · intro x hx d' hd'
            rcases List.mem_append.1 hx with h | h
            · exact hsep x h d' (List.mem_cons_of_mem _ hd')
            · simp only [List.mem_singleton] at h
              subst h
              rw [hbday]
              exact Int.ne_of_lt (hdlt d' hd')
        · exact ih _ hds' hacc (fun x hx d' hd' => hsep x hx d' (List.mem_cons_of_mem _ hd'))
      · exact ih _ hds' hacc (fun x hx d' hd' => hsep x hx d' (List.mem_cons_of_mem _ hd'))

theorem mem_insertDay {x d : Int} {l : List Int} :
    x ∈ insertDay d l ↔ x = d ∨ x ∈ l := by
  induction l with
  | nil => simp [insertDay]
  | cons y ys ih =>
      simp only [insertDay]
      split
      · simp only [List.mem_cons]
      · split
        · rename_i h1 h2
          subst h2
          simp only [List.mem_cons]
          tauto
        · simp only [List.mem_cons, ih]
          tauto

theorem insertDay_pairwise {d : Int} {l : List Int} (hl : l.Pairwise (· < ·)) :
    (insertDay d l).Pairwise (· < ·) := by
  induction l with
  | nil => simp [insertDay]
  | cons x xs ih =>
      have hx := (List.pairwise_cons.1 hl).1
      have hxs := (List.pairwise_cons.1 hl).2
      simp only [insertDay]
      split
      · rename_i hdx
        rw [List.pairwise_cons]
        refine ⟨?_, hl⟩
        intro y hy
        rcases List.mem_cons.1 hy with rfl | hy'
        · exact hdx
        · exact lt_trans hdx (hx y hy')
      · split
        · exact hl
        · rename_i h1 h2
          rw [List.pairwise_cons]
          refine ⟨?_, ih hxs⟩
          intro y hy
          rcases mem_insertDay.1 hy with rfl | hy'
          · omega
          · exact hx y hy'


theorem sortedDaysOf_pairwise (slots : List Candidate) :
    (sortedDaysOf slots).Pairwise (· < ·) := by
  unfold sortedDaysOf
  induction slots.map (fun s => dayOf s.start) with
  | nil => simp
  | cons d ds ih => exact insertDay_pairwise ih

theorem mem_sortedDaysOf {slots : List Candidate} {x : Int} :
    x ∈ sortedDaysOf slots ↔ ∃ s ∈ slots, dayOf s.start = x := by
  unfold sortedDaysOf
  rw [show (∃ s ∈ slots, dayOf s.start = x) ↔ x ∈ slots.map (fun s => dayOf s.start) by
    simp [List.mem_map, eq_comm]]
  induction slots.map (fun s => dayOf s.start) with
  | nil => simp
  | cons d ds ih => simp [mem_insertDay, ih]

/-- Transfer a symmetric pairwise property along a deduplicated selection. -/
theorem pairwise_of_mem_nodup {P : Candidate → Candidate → Prop}
    (hsym : ∀ a b, P a b → P b a) {sel out : List Candidate}
    (hp : sel.Pairwise P) (hsub : ∀ x ∈ out, x ∈ sel) (hnd : out.Nodup) :
    out.Pairwise P := by
  have hall := List.Pairwise.forall (fun a b h => hsym a b h) hp
  exact hnd.imp_of_mem (fun {a b} ha hb hne => hall (hsub a ha) (hsub b hb) hne)

/-- C7: in the final returned proposal list, no two candidates on the same
calendar day start less than 60 minutes apart — the invariant established by
the greedy diversity filter survives the day-spread pass and the final
truncation, for every input. -/
theorem proximity_diversity (now dur count : Int) (tr : String) (pref : Option String)
    (events : List (Int × Int)) :
    (find_free_slots now dur count tr pref events).Pairwise farOnSameDay := by
  unfold find_free_slots
  set sel := proximityPick count []
    (sortByScore (slotCandidates now dur tr pref events)) with hselDef
  have hselPW : sel.Pairwise farOnSameDay :=
    proximityPick_pairwise count _ [] (List.Pairwise.nil)
  have htake : ∀ (l : List Candidate) (k : Int), l.Pairwise farOnSameDay →
      (pySlice l k).Pairwise farOnSameDay := by
    intro l k hl
    unfold pySlice
    split <;> exact hl.sublist (List.take_sublist _ _)
  split
  · -- count > 1 : day-spread pass, then truncate
    refine htake _ _ ?_
    unfold spread_across_days
    have hnd1 : (spreadPassOne (count * 2) sel (sortedDaysOf sel) []).Nodup :=
      spreadPassOne_nodup _ _ _ [] (sortedDaysOf_pairwise sel) List.nodup_nil (by simp)
    have hnd : (spreadPassTwo (count * 2) sel
        (spreadPassOne (count * 2) sel (sortedDaysOf sel) [])).Nodup :=
      spreadPassTwo_nodup _ _ _ hnd1
    refine pairwise_of_mem_nodup (fun a b => farOnSameDay_symm) hselPW ?_ hnd
    intro x hx
    rcases spreadPassTwo_mem _ _ _ _ hx with h | h
    · rcases spreadPassOne_mem _ _ _ _ _ h with h' | h'
      · simp at h'
      · exact h'
    · exact h
  · exact htake _ _ hselPW

/-! ### Claim C6 (day spread) -/

/-- `max(by_day[day], key=score)`: the day's first highest-scoring slot
(total function; the default is never reached when the day is inhabited). -/
def bestOfDay (slots : List Candidate) (d : Int) : Candidate :=
  (bestSlot (slots.filter (fun s => decide (dayOf s.start = d)))).getD
    { start := 0, stop := 0, score := 0, weekday := 0 }

theorem bestSlot_eq_none {l : List Candidate} : bestSlot l = none ↔ l = [] := by
  cases l <;> simp [bestSlot]

theorem bestOfDay_day {slots : List Candidate} {d : Int}
    (h : slots.filter (fun s => decide (dayOf s.start = d)) ≠ []) :
    dayOf (bestOfDay slots d).start = d := by
  unfold bestOfDay
  cases hb : bestSlot (slots.filter (fun s => decide (dayOf s.start = d))) with
  | none => exact absurd (bestSlot_eq_none.1 hb) h
  | some b =>
      simp only [Option.getD_some]
      have := List.mem_filter.1 (bestSlot_mem hb)
      simpa using this.2

theorem spreadPassOne_extends (cap : Int) (slots : List Candidate) :
    ∀ (ds : List Int) (acc : List Candidate),
      ∃ tail, spreadPassOne cap slots ds acc = acc ++ tail := by
  intro ds
  induction ds with
  | nil =>
      intro acc
      exact ⟨[], by simp [spreadPassOne]⟩
  | cons d ds ih =>
      intro acc
      simp only [spreadPassOne]
      split
      · split
        · rename_i b hb
          obtain ⟨t, ht⟩ := ih (acc ++ [b])
          exact ⟨[b] ++ t, by rw [ht, List.append_assoc]⟩
        · exact ih acc
      · exact ih acc

theorem spreadPassTwo_extends (cap : Int) :
    ∀ (l acc : List Candidate), ∃ tail, spreadPassTwo cap l acc = acc ++ tail := by
  intro l
  induction l with
  | nil =>
      intro acc
      exact ⟨[], by simp [spreadPassTwo]⟩
  | cons s rest ih =>
      intro acc
      simp only [spreadPassTwo]
      split
      · obtain ⟨t, ht⟩ := ih (acc ++ [s])
        exact ⟨[s] ++ t, by rw [ht, List.append_assoc]⟩
      · exact ih acc

/-- While the cap is not reached, the first spread pass appends exactly the
best slot of each day, in chronological day order. -/
theorem spreadPassOne_prefix (cap : Int) (slots : List Candidate) :
    ∀ (ds : List Int) (j : Nat) (acc : List Candidate),
      j ≤ ds.length → (acc.length : Int) + j ≤ cap →
      (∀ d ∈ ds, slots.filter (fun s => decide (dayOf s.start = d)) ≠ []) →
      ∃ tail, spreadPassOne cap slots ds acc =
        acc ++ (ds.take j).map (bestOfDay slots) ++ tail := by
  intro ds
  induction ds with
  | nil =>
      intro j acc hj _ _
      simp only [List.length_nil, Nat.le_zero] at hj
      subst hj
      exact ⟨[], by simp [spreadPassOne]⟩
  | cons d ds ih =>
      intro j acc hj hcap hne
      cases j with
      | zero =>
          obtain ⟨t, ht⟩ := spreadPassOne_extends cap slots (d :: ds) acc
          exact ⟨t, by simpa using ht⟩
      | succ j' =>
          simp only [spreadPassOne]
          rw [if_pos (show (acc.length : Int) < cap by omega)]
          split
          · rename_i b hb
            obtain ⟨t, ht⟩ := ih j' (acc ++ [b])
              (by simpa using hj)
              (by simp only [List.length_append, List.length_singleton]; push_cast; omega)
              (fun d' hd' => hne d' (List.mem_cons_of_mem _ hd'))
            refine ⟨t, ?_⟩
            rw [ht]
            have hbod : bestOfDay slots d = b := by
              unfold bestOfDay
              rw [hb]
              rfl
            simp [hbod, List.append_assoc]
          · rename_i hnone
            exact absurd (bestSlot_eq_none.1 hnone) (hne d (List.mem_cons_self _ _))

/-- C6 (amended): when `count > 1` and the candidates accepted by the
diversity filter span at least `count` distinct calendar days, the first
`count` returned proposals include at least one candidate from each of the
first `count` distinct chronological days **of those accepted candidates**
(a day whose free slots were all discarded by the score-ordered selection
cap contributes nothing, so the original "days with any free slot" reading
fails — see the counterexample). -/
theorem day_spread_amended (now dur count : Int) (tr : String) (pref : Option String)
    (events : List (Int × Int)) (hcount : 1 < count)
    (hdays : count.toNat ≤ (sortedDaysOf (proximityPick count []
        (sortByScore (slotCandidates now dur tr pref events)))).length) :
    ∀ d ∈ (sortedDaysOf (proximityPick count []
        (sortByScore (slotCandidates now dur tr pref events)))).take count.toNat,
      ((find_free_slots now dur count tr pref events).take count.toNat).any
        (fun c => decide (dayOf c.start = d)) = true := by
  intro d hd
  set sel := proximityPick count [] (sortByScore (slotCandidates now dur tr pref events))
    with hselDef
  set days := sortedDaysOf sel with hdaysDef
  have hne : ∀ d' ∈ days, sel.filter (fun s => decide (dayOf s.start = d')) ≠ [] := by
    intro d' hd'
    obtain ⟨s, hs, hds⟩ := mem_sortedDaysOf.1 hd'
    intro hcontra
    have hmem : s ∈ sel.filter (fun s => decide (dayOf s.start = d')) :=
      List.mem_filter.2 ⟨hs, by simp [hds]⟩
    rw [hcontra] at hmem
    cases hmem
  obtain ⟨t1, ht1⟩ := spreadPassOne_prefix (count * 2) sel days count.toNat [] hdays
    (by simp only [List.length_nil]; omega) hne
  obtain ⟨t2, ht2⟩ := spreadPassTwo_extends (count * 2) sel
    (spreadPassOne (count * 2) sel days [])
  have hout : find_free_slots now dur count tr pref events =
      (spreadPassTwo (count * 2) sel
        (spreadPassOne (count * 2) sel days [])).take (count * 2).toNat := by
    simp only [find_free_slots]
    rw [← hselDef, if_pos hcount]
    simp only [spread_across_days, pySlice]
    rw [← hdaysDef, if_neg (show ¬count * 2 < 0 by omega)]
  have hpre : (find_free_slots now dur count tr pref events).take count.toNat =
      (days.take count.toNat).map (bestOfDay sel) := by
    rw [hout, ht2, ht1, List.take_take]
    have hmin : min count.toNat (count * 2).toNat = count.toNat := by omega
    rw [hmin, List.nil_append, List.append_assoc]
    have hlen : ((days.take count.toNat).map (bestOfDay sel)).length = count.toNat := by
      simp only [List.length_map, List.length_take]
      omega
    exact List.take_left' hlen
  rw [hpre]
  simp only [List.any_eq_true, decide_eq_true_eq]
  exact ⟨bestOfDay sel d, List.mem_map.2 ⟨d, hd, rfl⟩,
    bestOfDay_day (hne d (List.mem_of_mem_take hd))⟩

unseal Rat.add Rat.sub Rat.mul Rat.inv in
/-- C6, counterexample to the claim as stated: searching from Saturday 07:00
(minute 14820, day 10) over `this_week` with a morning preference, 30-minute
slots and `count = 2` over an empty calendar: the accepted candidates span 4
distinct days (Monday–Thursday), satisfying the claim's hypothesis, and the
first two distinct chronological days with any free scanned slot are
Saturday (day 10) and Sunday (day 11) — yet the first two returned
proposals (Monday and Tuesday 08:00) include no candidate from those days,
because the score-ordered diversity filter hit its `count * 2` cap before
any weekend candidate was accepted. -/
theorem day_spread_counterexample :
    (1 : Int) < 2 ∧
    2 ≤ (sortedDaysOf (proximityPick 2 [] (sortByScore
        (slotCandidates 14820 30 "this_week" (some "morning") [])))).length ∧
    (sortedDaysOf (slotCandidates 14820 30 "this_week" (some "morning") [])).take 2 =
      [10, 11] ∧
    ¬∀ d ∈ (sortedDaysOf (slotCandidates 14820 30 "this_week" (some "morning") [])).take 2,
        ((find_free_slots 14820 30 2 "this_week" (some "morning") []).take 2).any
          (fun c => decide (dayOf c.start = d)) = true := by
  refine ⟨by norm_num, by decide, by decide, by decide⟩

unseal Rat.add Rat.sub Rat.mul Rat.inv in
/-- C6, witness for the amended theorem at the concrete input above: the
first accepted day (Monday, day 12) is represented among the first two
proposals. -/
theorem day_spread_witness :
    ((find_free_slots 14820 30 2 "this_week" (some "morning") []).take 2).any
      (fun c => decide (dayOf c.start = 12)) = true := by
  have h := day_spread_amended 14820 30 2 "this_week" (some "morning") []
    (by norm_num) (by decide)
  exact h 12 (by decide)

/-! ### Proposal-session confirmation (`VoiceService.confirm_event`)

The proposal store `_pending_proposals` is modeled as an association list
from session id to session data; the calendar backend's
`create_or_update_event` is modeled by an outcome oracle
`createOk : start → end → Bool` (the source's `try/except` around it turns
a raised error into an early error return). -/

/-- The per-session data `confirm_event` reads: the parsed request's
`duration_minutes` and the stored proposal list (`created_at` and the other
request fields are never read by `confirm_event`). -/
structure SessionData where
  duration_minutes : Int
  proposals : List Candidate
deriving DecidableEq

/-- The four observable outcomes of `confirm_event`: the three error
returns (`"Invalid or expired session ID"`, `"Invalid selection indices"`,
`"Failed to create event: ..."`) and success with the created
`(start, end)` pairs. -/
inductive ConfirmOutcome where
  | invalidSession
  | invalidSelection
  | createFailed
  | success (events : List (Int × Int))
deriving DecidableEq

def ConfirmOutcome.isSuccess : ConfirmOutcome → Bool
  | .success _ => true
  | _ => false

def lookupSession (store : List (String × SessionData)) (sid : String) :
    Option SessionData :=
  (store.find? (fun kv => kv.1 == sid)).map (fun kv => kv.2)

/-- `del self._pending_proposals[session_id]`. -/
def eraseSession (store : List (String × SessionData)) (sid : String) :
    List (String × SessionData) :=
  store.filter (fun kv => kv.1 != sid)

/-- `start_time.replace(hour=hours, minute=minutes)` for an entry of
`adjusted_times`; the surrounding `try/except` keeps the original start when
the adjustment cannot be parsed or applied. -/
def applyAdjust (adjusted : List (Int × Int × Int)) (idx : Int) (start : Int) : Int :=
  match (adjusted.find? (fun a => a.1 == idx)).map (fun a => a.2) with
  | some (h, m) =>
      if 0 ≤ h ∧ h < 24 ∧ 0 ≤ m ∧ m < 60 then start - start % 1440 + h * 60 + m
      else start
  | none => start

/-- The creation loop of `confirm_event`: each selected proposal (with
optional per-index time adjustment) is sent to the calendar backend; the
first failure returns an error from inside the loop, before the session
is deleted. -/
def confirmLoop (createOk : Int → Int → Bool) (duration : Int)
    (proposals : List Candidate) (adjusted : List (Int × Int × Int)) :
    List Int → List (Int × Int) → Option (List (Int × Int))
  | [], created => some created
  | idx :: rest, created =>
      let p := proposals.getD idx.toNat { start := 0, stop := 0, score := 0, weekday := 0 }
      let start_time := applyAdjust adjusted idx p.start
      let end_time := start_time + duration
      if createOk start_time end_time then
        confirmLoop createOk duration proposals adjusted rest
          (created ++ [(start_time, end_time)])
      else none

/-- `confirm_event`: reject an empty or unknown session id; validate the
selection indices (`not selected_indices or not all(0 <= i < len(proposals))`),
leaving the store untouched on failure; run the creation loop (a failure
returns an error without touching the store); and only after the loop
delete the session entry. -/
def confirm_event (store : List (String × SessionData)) (session_id : String)
    (selected_indices : List Int) (adjusted_times : List (Int × Int × Int))
    (createOk : Int → Int → Bool) : ConfirmOutcome × List (String × SessionData) :=
  if session_id = "" then (.invalidSession, store)
  else
    match lookupSession store session_id with
    | none => (.invalidSession, store)
    | some sd =>
        if selected_indices = [] ∨
            ¬∀ i ∈ selected_indices, 0 ≤ i ∧ i < (sd.proposals.length : Int) then
          (.invalidSelection, store)
        else
          match confirmLoop createOk sd.duration_minutes sd.proposals adjusted_times
              selected_indices [] with
          | none => (.createFailed, store)
          | some created => (.success created, eraseSession store session_id)

theorem confirmLoop_const_true (duration : Int) (proposals : List Candidate)
    (adjusted : List (Int × Int × Int)) :
    ∀ (sel : List Int) (created : List (Int × Int)),
      ∃ r, confirmLoop (fun _ _ => true) duration proposals adjusted sel created = some r := by
  intro sel
  induction sel with
  | nil =>
      intro created
      exact ⟨created, rfl⟩
  | cons idx rest ih =>
      intro created
      simp only [confirmLoop, if_pos]
      exact ih _

/-- A one-session store used by the concrete confirmation scenarios. -/
def demoStore : List (String × SessionData) :=
  [("s1",
    { duration_minutes := 30,
      proposals := [{ start := 17820, stop := 17850, score := 0, weekday := 0 }] })]

/-! ### Claim C5 (session consumed even when creation fails?) -/

/-- C5, counterexample: with an active session, a valid selection and a
calendar backend that fails the creation, `confirm_event` returns the
creation-failure error and leaves the store **unchanged** — the session
entry is *not* deleted, contradicting the claim that validated selections
always consume the session. -/
theorem session_kept_on_create_failure :
    confirm_event
        demoStore
        "s1" [0] [] (fun _ _ => false) =
      (.createFailed,
        demoStore) ∧
    lookupSession
        demoStore
        "s1" ≠ none := by
  constructor
  · decide
  · decide

/-- C5 (amended): on an active session with valid selection indices, the
session entry is deleted exactly when every selected creation succeeds;
when a creation fails, the call returns an error and the session entry
remains in the store unchanged. -/
theorem session_consumed_iff_created (store : List (String × SessionData)) (sid : String)
    (sd : SessionData) (sel : List Int) (adj : List (Int × Int × Int))
    (createOk : Int → Int → Bool) (hsid : sid ≠ "")
    (hlook : lookupSession store sid = some sd) (hne : sel ≠ [])
    (hvalid : ∀ i ∈ sel, 0 ≤ i ∧ i < (sd.proposals.length : Int)) :
    ((confirm_event store sid sel adj createOk).1.isSuccess = true ∧
      (confirm_event store sid sel adj createOk).2 = eraseSession store sid) ∨
    ((confirm_event store sid sel adj createOk).1 = .createFailed ∧
      (confirm_event store sid sel adj createOk).2 = store) := by
  simp only [confirm_event, hlook, if_neg hsid]
  rw [if_neg (show ¬(sel = [] ∨ ¬∀ i ∈ sel, 0 ≤ i ∧ i < (sd.proposals.length : Int)) by
    push_neg
    exact ⟨hne, hvalid⟩)]
  cases hloop : confirmLoop createOk sd.duration_minutes sd.proposals adj sel [] with
  | none => exact Or.inr ⟨rfl, rfl⟩
  | some created => exact Or.inl ⟨rfl, rfl⟩

/-- C5, witness for the amended theorem: with an always-succeeding backend
the session is consumed. -/
theorem session_consumed_iff_created_witness :
    ((confirm_event
        demoStore
        "s1" [0] [] (fun _ _ => true)).1.isSuccess = true ∧
      (confirm_event
        demoStore
        "s1" [0] [] (fun _ _ => true)).2 =
        eraseSession
          demoStore
          "s1") ∨
    ((confirm_event
        demoStore
        "s1" [0] [] (fun _ _ => true)).1 = .createFailed ∧
      (confirm_event
        demoStore
        "s1" [0] [] (fun _ _ => true)).2 =
        demoStore) :=
  session_consumed_iff_created _ "s1" _ [0] [] (fun _ _ => true)
    (by decide) rfl (by decide) (by decide)

/-! ### Claim C9 (invalid selection leaves the session retryable) -/

/-- C9: on an active session, a confirmation with an empty selection list or
any out-of-range index fails with the invalid-selection error and leaves
the store unchanged (the session stays active); an immediately retried
confirmation with corrected indices on the same session id then succeeds
(shown with a backend that accepts every creation) and consumes the session. -/
theorem invalid_selection_keeps_session (store : List (String × SessionData))
    (sid : String) (sd : SessionData) (sel : List Int) (adj : List (Int × Int × Int))
    (createOk : Int → Int → Bool) (hsid : sid ≠ "")
    (hlook : lookupSession store sid = some sd)
    (hbad : sel = [] ∨ ¬∀ i ∈ sel, 0 ≤ i ∧ i < (sd.proposals.length : Int)) :
    confirm_event store sid sel adj createOk = (.invalidSelection, store) ∧
    ∀ sel' : List Int, sel' ≠ [] →
      (∀ i ∈ sel', 0 ≤ i ∧ i < (sd.proposals.length : Int)) →
      (confirm_event store sid sel' adj (fun _ _ => true)).1.isSuccess = true ∧
      (confirm_event store sid sel' adj (fun _ _ => true)).2 = eraseSession store sid := by
  constructor
  · simp only [confirm_event, hlook, if_neg hsid]
    rw [if_pos hbad]
  · intro sel' hne hvalid
    simp only [confirm_event, hlook, if_neg hsid]
    rw [if_neg (show ¬(sel' = [] ∨ ¬∀ i ∈ sel', 0 ≤ i ∧ i < (sd.proposals.length : Int)) by
      push_neg
      exact ⟨hne, hvalid⟩)]
    obtain ⟨r, hr⟩ := confirmLoop_const_true sd.duration_minutes sd.proposals adj sel' []
    rw [hr]
    exact ⟨rfl, rfl⟩

/-- C9, witness: an empty selection on a concrete active session leaves the
store unchanged, and the corrected retry `[0]` on the same session succeeds. -/
theorem invalid_selection_keeps_session_witness :
    confirm_event
        demoStore
        "s1" [] [] (fun _ _ => true) =
      (.invalidSelection,
        demoStore) ∧
    (confirm_event
        demoStore
        "s1" [0] [] (fun _ _ => true)).1.isSuccess = true := by
  have h := invalid_selection_keeps_session
    demoStore
    "s1" _ [] [] (fun _ _ => true) (by decide) rfl (Or.inl rfl)
  exact ⟨h.1, (h.2 [0] (by decide) (by decide)).1⟩

end SmartCalendar
